import Mathlib

/-!
# BLS signatures and aggregation (`blsig.go`)

A shallow embedding of package `blsig`: key derivation, signing, aggregation and
(aggregate) verification over the pairing library `bls12` and `crypto/sha256`.

The pairing library and the hash are external to the package.  They are taken as a
record of operations (`Extern`); what the package assumes of them (bilinearity,
marshal round trips, non-degeneracy) is stated as separate hypotheses.

A Go call either returns a value or stops with a run-time panic (an index out of
range); `Run` records which.
-/

set_option autoImplicit false

namespace Blsig

/-- A Go byte slice `[]byte`: the list of its byte values (naturals below 256). -/
abbrev Bytes := List Nat

/-- Outcome of running a Go function: it returns a value, or it stops with a run-time
panic (here always "index out of range"). -/
inductive Run (α : Type) where
  | returns : α → Run α
  | panics : Run α
  deriving DecidableEq, Repr

/-- The operations `blsig.go` uses from `github.com/dis2/bls12`, `crypto/sha256`.
`Unmarshal` on a group returns the receiver or `nil`; `nil` is `none` here.
`scalarUnmarshal` is the value held by a fresh `Scalar` after `Unmarshal(buf)`
(the package ignores what the call returns). -/
structure Extern (Scalar G1 G2 GT : Type) where
  /-- Function `sha256.Sum256`, as a byte slice. -/
  sha256 : Bytes → Bytes
  /-- Method `Scalar.Unmarshal`. -/
  scalarUnmarshal : Bytes → Scalar
  /-- Method `G1.Unmarshal`. -/
  g1Unmarshal : Bytes → Option G1
  /-- Method `G1.Marshal`. -/
  g1Marshal : G1 → Bytes
  /-- Method `G1.Add`: the receiver becomes receiver + argument. -/
  g1Add : G1 → G1 → G1
  /-- Method `G1.ScalarMult`. -/
  g1ScalarMult : G1 → Scalar → G1
  /-- Method `G1.HashToPoint`. -/
  g1HashToPoint : Bytes → G1
  /-- Method `G2.Unmarshal`. -/
  g2Unmarshal : Bytes → Option G2
  /-- Method `G2.Marshal`. -/
  g2Marshal : G2 → Bytes
  /-- Method `G2.SetOne`: the canonical generator of the second group. -/
  g2SetOne : G2
  /-- Method `G2.ScalarBaseMult`. -/
  g2ScalarBaseMult : Scalar → G2
  /-- Method `GT.Pair`. -/
  gtPair : G1 → G2 → GT
  /-- Method `GT.Add`: the receiver becomes receiver combined with the argument. -/
  gtAdd : GT → GT → GT
  /-- Method `GT.Equal`. -/
  gtEqual : GT → GT → Bool

/-- The Go type `PrivKey`: a struct embedding a `bls12.Scalar`. -/
structure PrivKey (Scalar : Type) where
  scalar : Scalar

section Code

variable {Scalar G1 G2 GT : Type}

/-- The statement `buf[0] &= 0x3f` on the 32-byte digest. -/
def clamp : Bytes → Bytes
  | [] => []
  | b :: rest => (b &&& 0x3f) :: rest

/-- The bytes `GenPrivKey` hands to `Scalar.Unmarshal`.  `seed = none` is the Go `nil`
slice; `rnd` is what `rand.Read` wrote into the fresh 64-byte buffer. -/
def GenPrivKeyBuf (E : Extern Scalar G1 G2 GT) (seed : Option Bytes) (rnd : Bytes) : Bytes :=
  let seed' := match seed with
    | none => rnd
    | some s => s
  clamp (E.sha256 seed')

/-- Function `GenPrivKey`. -/
def GenPrivKey (E : Extern Scalar G1 G2 GT) (seed : Option Bytes) (rnd : Bytes) :
    PrivKey Scalar :=
  ⟨E.scalarUnmarshal (GenPrivKeyBuf E seed rnd)⟩

/-- Method `PrivKey.Public`. -/
def Public (E : Extern Scalar G1 G2 GT) (sk : PrivKey Scalar) : Bytes :=
  E.g2Marshal (E.g2ScalarBaseMult sk.scalar)

/-- Method `PrivKey.Sign`. -/
def Sign (E : Extern Scalar G1 G2 GT) (sk : PrivKey Scalar) (m : Bytes) : Bytes :=
  E.g1Marshal (E.g1ScalarMult (E.g1HashToPoint m) sk.scalar)

/-- The loop `for _, sig := range sigs[1:]` of `Aggregate`, followed by the final
`return sum.Marshal()`.  `none` is the `nil` slice. -/
def aggregateLoop (E : Extern Scalar G1 G2 GT) : List Bytes → G1 → Option Bytes
  | [], sum => some (E.g1Marshal sum)
  | sig :: rest, sum =>
    match E.g1Unmarshal sig with
    | none => none
    | some g => aggregateLoop E rest (E.g1Add sum g)

/-- Function `Aggregate`.  `sigs[0]` on an empty slice is an index out of range. -/
def Aggregate (E : Extern Scalar G1 G2 GT) (sigs : List Bytes) : Run (Option Bytes) :=
  match sigs with
  | [] => Run.panics
  | sig0 :: rest =>
    match E.g1Unmarshal sig0 with
    | none => Run.returns none
    | some g => Run.returns (aggregateLoop E rest g)

/-- The duplicate scan of `VerifyAggregate`: `dupes` is the set of keys of the Go map
(every stored value is `true`, a missing key reads `false`).  The result is `true`
when the scan hits `return false`. -/
def dupeScan (E : Extern Scalar G1 G2 GT) : List Bytes → List Bytes → Bool
  | _, [] => false
  | dupes, m :: rest =>
    let s := E.sha256 m
    if s ∈ dupes then true else dupeScan E (s :: dupes) rest

/-- The loop `for i, m := range msgs[1:]` of `VerifyAggregate`, followed by the final
`return e1.Equal(e2)`.  `keys` is the whole key slice, read at `keys[i+1]`. -/
def verifyLoop (E : Extern Scalar G1 G2 GT) (keys : List Bytes) (e1 : GT) :
    Nat → List Bytes → GT → Run Bool
  | _, [], e2 => Run.returns (E.gtEqual e1 e2)
  | i, m :: rest, e2 =>
    let p1 := E.g1HashToPoint m
    match keys[i + 1]? with
    | none => Run.panics
    | some k =>
      match E.g2Unmarshal k with
      | none => Run.returns false
      | some p2 => verifyLoop E keys e1 (i + 1) rest (E.gtAdd e2 (E.gtPair p1 p2))

/-- Function `VerifyAggregate`. -/
def VerifyAggregate (E : Extern Scalar G1 G2 GT) (msgs keys : List Bytes) (aggsig : Bytes)
    (allowdupe : Bool) : Run Bool :=
  if msgs.length ≠ keys.length then Run.returns false
  else if !allowdupe && dupeScan E [] msgs then Run.returns false
  else
    match E.g1Unmarshal aggsig with
    | none => Run.returns false
    | some ag =>
      let e1 := E.gtPair ag E.g2SetOne
      match msgs with
      | [] => Run.panics
      | m0 :: rest =>
        let p1 := E.g1HashToPoint m0
        match keys[0]? with
        | none => Run.panics
        | some k0 =>
          match E.g2Unmarshal k0 with
          | none => Run.returns false
          | some p2 => verifyLoop E keys e1 0 rest (E.gtPair p1 p2)

/-- Function `Verify`. -/
def Verify (E : Extern Scalar G1 G2 GT) (msg pk sig : Bytes) : Run Bool :=
  VerifyAggregate E [msg] [pk] sig true

end Code

/-! ## What the package assumes of the pairing library -/

/-- Marshal followed by Unmarshal gives the point back, on G1 and on G2. -/
structure MarshalRoundTrip {Scalar G1 G2 GT : Type} (E : Extern Scalar G1 G2 GT) : Prop where
  g1 : ∀ p, E.g1Unmarshal (E.g1Marshal p) = some p
  g2 : ∀ q, E.g2Unmarshal (E.g2Marshal q) = some q

section Laws

variable {Scalar G1 G2 GT : Type} [CommRing Scalar]
  [AddCommGroup G1] [Module Scalar G1] [AddCommGroup G2] [Module Scalar G2]
  [AddCommGroup GT] [Module Scalar GT]

/-- The library computes in three groups acted on by the scalars, and `Pair` is
bilinear: additive in each argument and compatible with scalar multiples. -/
structure Bilinear (E : Extern Scalar G1 G2 GT) : Prop where
  g1Add_eq : ∀ a b, E.g1Add a b = a + b
  g1ScalarMult_eq : ∀ p s, E.g1ScalarMult p s = s • p
  g2ScalarBaseMult_eq : ∀ s, E.g2ScalarBaseMult s = s • E.g2SetOne
  gtAdd_eq : ∀ a b, E.gtAdd a b = a + b
  gtEqual_iff : ∀ a b, E.gtEqual a b = true ↔ a = b
  pair_add_left : ∀ p p' q, E.gtPair (p + p') q = E.gtPair p q + E.gtPair p' q
  pair_add_right : ∀ p q q', E.gtPair p (q + q') = E.gtPair p q + E.gtPair p q'
  pair_smul_left : ∀ (s : Scalar) p q, E.gtPair (s • p) q = s • E.gtPair p q
  pair_smul_right : ∀ (s : Scalar) p q, E.gtPair p (s • q) = s • E.gtPair p q

/-- Non-degeneracy of the pairing on groups of prime order: the pairing of two
points is the identity of the target group only when one of the points is the
identity. -/
def NonDegenerate (E : Extern Scalar G1 G2 GT) : Prop :=
  ∀ p q, E.gtPair p q = 0 → p = 0 ∨ q = 0

end Laws

/-! ## A small instance of the library, for evaluation

All three groups are the integers modulo 5 under addition, scalars are the integers
modulo 5, the pairing is multiplication.  A point `x` is encoded as the one-byte
slice `[x]`; every other slice is malformed. -/

/-- Decoding of the small instance. -/
def toyUnmarshal : Bytes → Option (Fin 5)
  | [b] => if h : b < 5 then some ⟨b, h⟩ else none
  | _ => none

/-- The small instance of the library. -/
def toy : Extern (Fin 5) (Fin 5) (Fin 5) (Fin 5) where
  sha256 := fun m => List.replicate 32 (m.sum % 256)
  scalarUnmarshal := fun buf => Fin.ofNat (buf.foldl (fun acc b => acc * 256 + b) 0)
  g1Unmarshal := toyUnmarshal
  g1Marshal := fun p => [p.val]
  g1Add := fun a b => a + b
  g1ScalarMult := fun p s => s * p
  g1HashToPoint := fun m => Fin.ofNat (m.sum + 1)
  g2Unmarshal := toyUnmarshal
  g2Marshal := fun p => [p.val]
  g2SetOne := 1
  g2ScalarBaseMult := fun s => s * 1
  gtPair := fun p q => p * q
  gtAdd := fun a b => a + b
  gtEqual := fun a b => decide (a = b)

/-! ## The small instance satisfies the assumptions -/

theorem toy_bilinear : Bilinear toy where
  g1Add_eq := fun _ _ => rfl
  g1ScalarMult_eq := fun _ _ => rfl
  g2ScalarBaseMult_eq := fun _ => rfl
  gtAdd_eq := fun _ _ => rfl
  gtEqual_iff := fun a b => by simp [toy]
  pair_add_left := fun p p' q => by simp only [toy]; ring
  pair_add_right := fun p q q' => by simp only [toy]; ring
  pair_smul_left := fun s p q => by simp only [toy, smul_eq_mul]; ring
  pair_smul_right := fun s p q => by simp only [toy, smul_eq_mul]; ring

theorem toy_roundtrip : MarshalRoundTrip toy where
  g1 := fun p => by simp [toy, toyUnmarshal]
  g2 := fun p => by simp [toy, toyUnmarshal]

theorem toy_nondegenerate : NonDegenerate toy := by
  unfold NonDegenerate; simp only [toy]; decide

/-! ## The verification loop, read off the zipped sequences -/

section LoopLemmas

variable {Scalar G1 G2 GT : Type}

/-- The verification loop as a recursion over the remaining messages and the remaining
keys side by side.  `verifyLoop_eq_verifyZip` shows the indexed loop of the code
computes this whenever as many keys as messages remain. -/
def verifyZip (E : Extern Scalar G1 G2 GT) (e1 : GT) : List Bytes → List Bytes → GT → Bool
  | [], _, e2 => E.gtEqual e1 e2
  | _ :: _, [], _ => false
  | m :: ms, k :: ks, e2 =>
    match E.g2Unmarshal k with
    | none => false
    | some p2 => verifyZip E e1 ms ks (E.gtAdd e2 (E.gtPair (E.g1HashToPoint m) p2))

theorem verifyLoop_eq_verifyZip (E : Extern Scalar G1 G2 GT) (keys : List Bytes) (e1 : GT) :
    ∀ (ms : List Bytes) (i : Nat) (e2 : GT), ms.length = (keys.drop (i + 1)).length →
      verifyLoop E keys e1 i ms e2 = Run.returns (verifyZip E e1 ms (keys.drop (i + 1)) e2) := by
  intro ms
  induction ms with
  | nil => intro i e2 _; simp [verifyLoop, verifyZip]
  | cons m ms ih =>
    intro i e2 hlen
    cases hk : keys.drop (i + 1) with
    | nil => rw [hk] at hlen; simp at hlen
    | cons k tl =>
      have hget : keys[i + 1]? = some k := by
        have h := List.getElem?_drop keys (i + 1) 0
        rw [hk] at h
        simpa using h.symm
      have htl : keys.drop (i + 1 + 1) = tl := by
        rw [← List.tail_drop, hk]; rfl
      have hlen' : ms.length = (keys.drop (i + 1 + 1)).length := by
        rw [hk] at hlen; rw [htl]; simpa using hlen
      simp only [verifyLoop, hget, verifyZip]
      cases hu : E.g2Unmarshal k with
      | none => rfl
      | some p2 =>
        simp only []
        rw [ih (i + 1) _ hlen', htl]

/-- When every remaining key decodes, the loop compares `e1` with `e2` combined with
one pairing per remaining index. -/
theorem verifyZip_decoded (E : Extern Scalar G1 G2 GT) (e1 : GT) :
    ∀ (ms ks : List Bytes) (qs : List G2) (e2 : GT),
      ks.map E.g2Unmarshal = qs.map some → ms.length = ks.length →
      verifyZip E e1 ms ks e2 = E.gtEqual e1
        ((List.zipWith (fun m q => E.gtPair (E.g1HashToPoint m) q) ms qs).foldl E.gtAdd e2) := by
  intro ms
  induction ms with
  | nil => intro ks qs e2 _ _; simp [verifyZip]
  | cons m ms ih =>
    intro ks qs e2 hdec hlen
    cases ks with
    | nil => simp at hlen
    | cons k ks =>
      cases qs with
      | nil => simp at hdec
      | cons q qs =>
        simp only [List.map_cons, List.cons.injEq] at hdec
        simp only [verifyZip, hdec.1, List.zipWith_cons_cons, List.foldl_cons]
        exact ih ks qs _ hdec.2 (by simpa using hlen)

/-- When some remaining key does not decode, the loop returns false. -/
theorem verifyZip_malformed (E : Extern Scalar G1 G2 GT) (e1 : GT) :
    ∀ (ms ks : List Bytes) (e2 : GT), ms.length = ks.length →
      (∃ k ∈ ks, E.g2Unmarshal k = none) → verifyZip E e1 ms ks e2 = false := by
  intro ms
  induction ms with
  | nil =>
    intro ks e2 hlen hbad
    obtain ⟨k, hk, _⟩ := hbad
    cases ks with
    | nil => simp at hk
    | cons _ _ => simp at hlen
  | cons m ms ih =>
    intro ks e2 hlen hbad
    cases ks with
    | nil => rfl
    | cons k ks =>
      cases hu : E.g2Unmarshal k with
      | none => simp [verifyZip, hu]
      | some p2 =>
        simp only [verifyZip, hu]
        obtain ⟨k', hk', hbad'⟩ := hbad
        rcases List.mem_cons.mp hk' with h | h
        · subst h; rw [hu] at hbad'; cases hbad'
        · exact ih ks _ (by simpa using hlen) ⟨k', h, hbad'⟩

end LoopLemmas

/-! ## The duplicate scan and the aggregation loop -/

section ScanLemmas

variable {Scalar G1 G2 GT : Type}

/-- The scan stops exactly when a digest was already in the map or occurs twice among
the messages. -/
theorem dupeScan_eq_true_iff (E : Extern Scalar G1 G2 GT) :
    ∀ (msgs dupes : List Bytes), dupeScan E dupes msgs = true ↔
      ((∃ m ∈ msgs, E.sha256 m ∈ dupes) ∨ ¬ (msgs.map E.sha256).Nodup) := by
  intro msgs
  induction msgs with
  | nil => intro dupes; simp [dupeScan]
  | cons m ms ih =>
    intro dupes
    by_cases hm : E.sha256 m ∈ dupes
    · simp [dupeScan, hm]
    · simp only [dupeScan, hm, if_false, ih, List.mem_cons, List.map_cons, List.nodup_cons,
        List.mem_map, not_and_or, not_not]
      constructor
      · rintro (⟨x, hx, h | h⟩ | h)
        · exact Or.inr (Or.inl ⟨x, hx, h⟩)
        · exact Or.inl ⟨x, Or.inr hx, h⟩
        · exact Or.inr (Or.inr h)
      · rintro (⟨x, rfl | hx, h⟩ | ⟨x, hx, h⟩ | h)
        · exact absurd h hm
        · exact Or.inl ⟨x, hx, Or.inr h⟩
        · exact Or.inl ⟨x, hx, Or.inl h⟩
        · exact Or.inr h

/-- Two entries at different indices with one digest make the scan stop. -/
theorem dupeScan_of_collision (E : Extern Scalar G1 G2 GT) (msgs : List Bytes) (i j : Nat)
    (a b : Bytes) (hi : msgs[i]? = some a) (hj : msgs[j]? = some b) (hij : i ≠ j)
    (hab : E.sha256 a = E.sha256 b) : dupeScan E [] msgs = true := by
  rw [dupeScan_eq_true_iff]
  right
  intro hnd
  rw [List.nodup_iff_getElem?_ne_getElem?] at hnd
  have hi' : (msgs.map E.sha256)[i]? = some (E.sha256 a) := by simp [hi]
  have hj' : (msgs.map E.sha256)[j]? = some (E.sha256 a) := by simp [hj, hab]
  have hlen : ∀ k x, (msgs.map E.sha256)[k]? = some x → k < (msgs.map E.sha256).length := by
    intro k x hk
    exact (List.getElem?_eq_some_iff.mp hk).1
  rcases Nat.lt_or_gt_of_ne hij with h | h
  · exact hnd i j h (hlen j _ hj') (hi'.trans hj'.symm)
  · exact hnd j i h (hlen i _ hi') (hj'.trans hi'.symm)

/-- The aggregation loop fails exactly when a remaining element does not decode. -/
theorem aggregateLoop_eq_none_iff (E : Extern Scalar G1 G2 GT) :
    ∀ (sigs : List Bytes) (sum : G1),
      aggregateLoop E sigs sum = none ↔ ∃ s ∈ sigs, E.g1Unmarshal s = none := by
  intro sigs
  induction sigs with
  | nil => intro sum; simp [aggregateLoop]
  | cons s sigs ih =>
    intro sum
    cases hu : E.g1Unmarshal s with
    | none => simp [aggregateLoop, hu]
    | some g => simp [aggregateLoop, hu, ih]

/-- When every remaining element decodes, the loop marshals the running sum with every
decoded point added once. -/
theorem aggregateLoop_decoded (E : Extern Scalar G1 G2 GT) :
    ∀ (sigs : List Bytes) (pts : List G1) (sum : G1),
      sigs.map E.g1Unmarshal = pts.map some →
      aggregateLoop E sigs sum = some (E.g1Marshal (pts.foldl E.g1Add sum)) := by
  intro sigs
  induction sigs with
  | nil =>
    intro pts sum h
    cases pts with
    | nil => rfl
    | cons _ _ => simp at h
  | cons s sigs ih =>
    intro pts sum h
    cases pts with
    | nil => simp at h
    | cons p pts =>
      simp only [List.map_cons, List.cons.injEq] at h
      simp only [aggregateLoop, h.1, List.foldl_cons]
      exact ih pts _ h.2

end ScanLemmas

/-! ## `VerifyAggregate` unfolded -/

section Unfold

variable {Scalar G1 G2 GT : Type}

theorem dupeScan_nil_eq_false_iff (E : Extern Scalar G1 G2 GT) (msgs : List Bytes) :
    dupeScan E [] msgs = false ↔ (msgs.map E.sha256).Nodup := by
  rw [← Bool.not_eq_true, dupeScan_eq_true_iff]
  simp

/-- On non-empty sequences of one length no index is out of range, and the call
returns the value below. -/
theorem VerifyAggregate_cons (E : Extern Scalar G1 G2 GT) (m0 : Bytes) (ms : List Bytes)
    (k0 : Bytes) (ks : List Bytes) (aggsig : Bytes) (d : Bool) (hlen : ms.length = ks.length) :
    VerifyAggregate E (m0 :: ms) (k0 :: ks) aggsig d = Run.returns
      (if (!d && dupeScan E [] (m0 :: ms)) = true then false
       else match E.g1Unmarshal aggsig with
        | none => false
        | some ag =>
          match E.g2Unmarshal k0 with
          | none => false
          | some p2 =>
            verifyZip E (E.gtPair ag E.g2SetOne) ms ks (E.gtPair (E.g1HashToPoint m0) p2)) := by
  unfold VerifyAggregate
  simp only [List.length_cons, hlen, ne_eq, not_true_eq_false, if_false]
  by_cases hd : (!d && dupeScan E [] (m0 :: ms)) = true
  · simp only [hd, if_true]
  · simp only [hd, if_false]
    cases E.g1Unmarshal aggsig with
    | none => rfl
    | some ag =>
      simp only [List.getElem?_cons_zero]
      cases E.g2Unmarshal k0 with
      | none => rfl
      | some p2 =>
        simp only []
        rw [verifyLoop_eq_verifyZip E (k0 :: ks) _ ms 0 _ (by simpa using hlen)]
        rfl

/-- A single verification with well-formed key and signature is one comparison of
two pairings. -/
theorem Verify_decoded (E : Extern Scalar G1 G2 GT) (msg pk sig : Bytes) (S : G1) (Q : G2)
    (hsig : E.g1Unmarshal sig = some S) (hpk : E.g2Unmarshal pk = some Q) :
    Verify E msg pk sig =
      Run.returns (E.gtEqual (E.gtPair S E.g2SetOne) (E.gtPair (E.g1HashToPoint msg) Q)) := by
  unfold Verify
  rw [VerifyAggregate_cons E msg [] pk [] sig true rfl]
  simp [hsig, hpk, verifyZip]

/-- When every key decodes to the listed points, the aggregate signature decodes and
no duplicate stops the call, the result is the comparison of the two sides. -/
theorem VerifyAggregate_decoded (E : Extern Scalar G1 G2 GT) (m0 : Bytes) (ms : List Bytes)
    (keys : List Bytes) (q0 : G2) (qs : List G2) (aggsig : Bytes) (S : G1) (d : Bool)
    (hlen : (m0 :: ms).length = keys.length)
    (hkeys : keys.map E.g2Unmarshal = (q0 :: qs).map some)
    (hsig : E.g1Unmarshal aggsig = some S)
    (hdup : d = true ∨ ((m0 :: ms).map E.sha256).Nodup) :
    VerifyAggregate E (m0 :: ms) keys aggsig d = Run.returns
      (E.gtEqual (E.gtPair S E.g2SetOne)
        ((List.zipWith (fun m q => E.gtPair (E.g1HashToPoint m) q) ms qs).foldl E.gtAdd
          (E.gtPair (E.g1HashToPoint m0) q0))) := by
  cases keys with
  | nil => simp at hlen
  | cons k0 ks =>
    have hlen' : ms.length = ks.length := by simpa using hlen
    simp only [List.map_cons, List.cons.injEq] at hkeys
    have hd : ¬ ((!d && dupeScan E [] (m0 :: ms)) = true) := by
      rcases hdup with h | h
      · simp [h]
      · simp [(dupeScan_nil_eq_false_iff E (m0 :: ms)).mpr h]
    rw [VerifyAggregate_cons E m0 ms k0 ks aggsig d hlen']
    simp only [hd, if_false, hsig, hkeys.1]
    rw [verifyZip_decoded E _ ms ks qs _ hkeys.2 hlen']
    simp

/-- The call is stopped by a panic on exactly one kind of input: no message, no key,
and a well-formed aggregate signature. -/
theorem VerifyAggregate_panics_iff (E : Extern Scalar G1 G2 GT) (msgs keys : List Bytes)
    (aggsig : Bytes) (d : Bool) :
    VerifyAggregate E msgs keys aggsig d = Run.panics ↔
      msgs = [] ∧ keys = [] ∧ (E.g1Unmarshal aggsig).isSome = true := by
  cases msgs with
  | nil =>
    cases keys with
    | nil =>
      cases hu : E.g1Unmarshal aggsig <;> simp [VerifyAggregate, dupeScan, hu]
    | cons k ks => simp [VerifyAggregate]
  | cons m0 ms =>
    cases keys with
    | nil => simp [VerifyAggregate]
    | cons k0 ks =>
      by_cases hlen : ms.length = ks.length
      · rw [VerifyAggregate_cons E m0 ms k0 ks aggsig d hlen]; simp
      · simp [VerifyAggregate, hlen]

end Unfold

/-! ## `Aggregate` unfolded, and sums -/

section Sums

variable {Scalar G1 G2 GT : Type}

/-- When every element decodes, `Aggregate` marshals the first point with every later
point added once. -/
theorem Aggregate_decoded (E : Extern Scalar G1 G2 GT) (sigs : List Bytes) (p0 : G1)
    (pts : List G1) (h : sigs.map E.g1Unmarshal = (p0 :: pts).map some) :
    Aggregate E sigs = Run.returns (some (E.g1Marshal (pts.foldl E.g1Add p0))) := by
  cases sigs with
  | nil => simp at h
  | cons s0 rest =>
    simp only [List.map_cons, List.cons.injEq] at h
    simp only [Aggregate, h.1]
    rw [aggregateLoop_decoded E rest pts p0 h.2]

/-- A sequence without a malformed element decodes to a sequence of points. -/
theorem exists_decoded {α : Type} (f : Bytes → Option α) :
    ∀ (l : List Bytes), (¬ ∃ s ∈ l, f s = none) → ∃ pts : List α, l.map f = pts.map some := by
  intro l
  induction l with
  | nil => intro _; exact ⟨[], rfl⟩
  | cons s l ih =>
    intro h
    have hl : ¬ ∃ t ∈ l, f t = none := fun ⟨t, ht, hf⟩ => h ⟨t, List.mem_cons_of_mem _ ht, hf⟩
    obtain ⟨pts, hpts⟩ := ih hl
    cases hs : f s with
    | none => exact absurd ⟨s, List.mem_cons_self _ _, hs⟩ h
    | some p => exact ⟨p :: pts, by simp [hs, hpts]⟩

/-- A left fold with an operation that is the addition of a commutative monoid is the
start value plus the sum of the list. -/
theorem foldl_eq_add_sum {M : Type} [AddCommMonoid M] (f : M → M → M)
    (hf : ∀ a b, f a b = a + b) : ∀ (l : List M) (a : M), l.foldl f a = a + l.sum := by
  intro l
  induction l with
  | nil => intro a; simp
  | cons x l ih => intro a; simp [ih, hf, add_assoc]

theorem zipWith_map_snd {α β γ δ : Type} (f : β → γ → δ) (g : α → β) (h : α → γ) :
    ∀ (l : List α), List.zipWith f (l.map g) (l.map h) = l.map (fun x => f (g x) (h x)) := by
  intro l
  induction l with
  | nil => rfl
  | cons x l ih => simp [ih]

end Sums

section PairingSums

variable {Scalar G1 G2 GT : Type} [CommRing Scalar]
  [AddCommGroup G1] [Module Scalar G1] [AddCommGroup G2] [Module Scalar G2]
  [AddCommGroup GT] [Module Scalar GT]

theorem Bilinear.pair_zero_left {E : Extern Scalar G1 G2 GT} (hB : Bilinear E) (q : G2) :
    E.gtPair 0 q = 0 := by
  have h := hB.pair_smul_left 0 0 q
  simpa using h

theorem Bilinear.pair_sum_left {E : Extern Scalar G1 G2 GT} (hB : Bilinear E) (q : G2) :
    ∀ (l : List G1), E.gtPair l.sum q = (l.map (fun p => E.gtPair p q)).sum := by
  intro l
  induction l with
  | nil => simpa using hB.pair_zero_left q
  | cons p l ih => simp [hB.pair_add_left, ih]

/-- Moving the secret scalar from the hashed message to the generator does not change
the pairing: the heart of the verification equation. -/
theorem Bilinear.pair_sign_eq {E : Extern Scalar G1 G2 GT} (hB : Bilinear E) (s : Scalar)
    (p : G1) : E.gtPair (E.g1ScalarMult p s) E.g2SetOne = E.gtPair p (E.g2ScalarBaseMult s) := by
  rw [hB.g1ScalarMult_eq, hB.g2ScalarBaseMult_eq, hB.pair_smul_left, hB.pair_smul_right]

end PairingSums

/-! ## Round trips: signing, aggregation, verification -/

section RoundTrip

variable {Scalar G1 G2 GT : Type} [CommRing Scalar]
  [AddCommGroup G1] [Module Scalar G1] [AddCommGroup G2] [Module Scalar G2]
  [AddCommGroup GT] [Module Scalar GT]

/-- C1. Sign/verify round trip: over a bilinear library whose Marshal/Unmarshal round-trip
on G1 and G2, `Verify(m, sk.Public(), sk.Sign(m))` returns true for every private key
`sk` and every message `m`; in particular for every key that `GenPrivKey` returns. -/
theorem Verify_Sign_roundtrip (E : Extern Scalar G1 G2 GT) (hB : Bilinear E)
    (hM : MarshalRoundTrip E) :
    (∀ (sk : PrivKey Scalar) (m : Bytes),
      Verify E m (Public E sk) (Sign E sk m) = Run.returns true) ∧
    (∀ (seed : Option Bytes) (rnd m : Bytes),
      Verify E m (Public E (GenPrivKey E seed rnd)) (Sign E (GenPrivKey E seed rnd) m)
        = Run.returns true) := by
  have key : ∀ (sk : PrivKey Scalar) (m : Bytes),
      Verify E m (Public E sk) (Sign E sk m) = Run.returns true := by
    intro sk m
    rw [Verify_decoded E m (Public E sk) (Sign E sk m) _ _ (hM.g1 _) (hM.g2 _),
      hB.pair_sign_eq]
    exact congrArg Run.returns ((hB.gtEqual_iff _ _).mpr rfl)
  exact ⟨key, fun seed rnd m => key _ m⟩

theorem Verify_Sign_roundtrip_witness :
    Bilinear toy ∧ MarshalRoundTrip toy ∧
      Verify toy [104, 105] (Public toy (GenPrivKey toy (some [1, 2]) []))
        (Sign toy (GenPrivKey toy (some [1, 2]) []) [104, 105]) = Run.returns true :=
  ⟨toy_bilinear, toy_roundtrip,
    (Verify_Sign_roundtrip toy toy_bilinear toy_roundtrip).2 (some [1, 2]) [] [104, 105]⟩

/-- C2. Aggregate verification: for every non-empty list of (private key, message)
pairs, aggregating the signatures `sk_i.Sign(m_i)` succeeds, and `VerifyAggregate` on the
messages, the public keys `sk_i.Public()` and that aggregate, with duplicates allowed,
returns true (bilinear library, Marshal/Unmarshal round-trip). -/
theorem VerifyAggregate_Aggregate_signed (E : Extern Scalar G1 G2 GT) (hB : Bilinear E)
    (hM : MarshalRoundTrip E) (kms : List (PrivKey Scalar × Bytes)) (hne : kms ≠ []) :
    ∃ agg : Bytes,
      Aggregate E (kms.map (fun p => Sign E p.1 p.2)) = Run.returns (some agg) ∧
      VerifyAggregate E (kms.map Prod.snd) (kms.map (fun p => Public E p.1)) agg true
        = Run.returns true := by
  cases kms with
  | nil => exact absurd rfl hne
  | cons km rest =>
    have hsigs : (Sign E km.1 km.2 :: rest.map (fun p => Sign E p.1 p.2)).map E.g1Unmarshal =
        (E.g1ScalarMult (E.g1HashToPoint km.2) km.1.scalar ::
          rest.map (fun p => E.g1ScalarMult (E.g1HashToPoint p.2) p.1.scalar)).map some := by
      simp [Sign, hM.g1]
    have hkeys : (Public E km.1 :: rest.map (fun p => Public E p.1)).map E.g2Unmarshal =
        (E.g2ScalarBaseMult km.1.scalar ::
          rest.map (fun p => E.g2ScalarBaseMult p.1.scalar)).map some := by
      simp [Public, hM.g2]
    simp only [List.map_cons]
    refine ⟨_, Aggregate_decoded E _ _ _ hsigs, ?_⟩
    rw [VerifyAggregate_decoded E km.2 (rest.map Prod.snd) _ _ _ _ _ true (by simp) hkeys
      (hM.g1 _) (Or.inl rfl)]
    refine congrArg Run.returns ((hB.gtEqual_iff _ _).mpr ?_)
    rw [foldl_eq_add_sum E.g1Add hB.g1Add_eq, foldl_eq_add_sum E.gtAdd hB.gtAdd_eq,
      hB.pair_add_left, hB.pair_sum_left, hB.pair_sign_eq, zipWith_map_snd, List.map_map]
    congr 2
    apply List.map_congr_left
    intro p _
    exact hB.pair_sign_eq _ _

theorem VerifyAggregate_Aggregate_signed_witness :
    [(GenPrivKey toy (some [115, 101, 101, 100]) [], [104, 101, 108, 108, 111]),
      (GenPrivKey toy (some [115, 101, 101, 100, 50]) [], [104, 101, 108, 108, 111, 50])]
        ≠ [] ∧
    ∃ agg : Bytes,
      Aggregate toy
        ([(GenPrivKey toy (some [115, 101, 101, 100]) [], [104, 101, 108, 108, 111]),
          (GenPrivKey toy (some [115, 101, 101, 100, 50]) [],
            [104, 101, 108, 108, 111, 50])].map (fun p => Sign toy p.1 p.2))
        = Run.returns (some agg) ∧
      VerifyAggregate toy
        ([(GenPrivKey toy (some [115, 101, 101, 100]) [], [104, 101, 108, 108, 111]),
          (GenPrivKey toy (some [115, 101, 101, 100, 50]) [],
            [104, 101, 108, 108, 111, 50])].map Prod.snd)
        ([(GenPrivKey toy (some [115, 101, 101, 100]) [], [104, 101, 108, 108, 111]),
          (GenPrivKey toy (some [115, 101, 101, 100, 50]) [],
            [104, 101, 108, 108, 111, 50])].map (fun p => Public toy p.1))
        agg true = Run.returns true :=
  ⟨by simp, VerifyAggregate_Aggregate_signed toy toy_bilinear toy_roundtrip _ (by simp)⟩

end RoundTrip

/-! ## What `VerifyAggregate` and `Aggregate` compute, and where they stop -/

section Contracts

variable {Scalar G1 G2 GT : Type}

/-- C3. `VerifyAggregate` decides exactly the pairing equation: for non-empty `msgs` and
`keys` of one length whose keys decode to the G2 points `qs`, an `aggsig` that decodes to
the G1 point `S`, and the duplicate check disabled or passed (pairwise distinct SHA-256
digests), the call returns a boolean, and it is true if and only if `Pair(S, generator)`
equals the target-group sum over all indices of `Pair(HashToPoint(msgs[i]), qs[i])`.
`GT.Add` is taken to be the operation of the target group and `GT.Equal` its equality. -/
theorem VerifyAggregate_iff_pairing_equation [AddCommGroup GT] (E : Extern Scalar G1 G2 GT)
    (hadd : ∀ a b, E.gtAdd a b = a + b) (heq : ∀ a b, E.gtEqual a b = true ↔ a = b)
    (msgs keys : List Bytes) (qs : List G2) (aggsig : Bytes) (S : G1) (allowdupe : Bool)
    (hlen : msgs.length = keys.length) (hne : msgs ≠ [])
    (hkeys : keys.map E.g2Unmarshal = qs.map some)
    (hsig : E.g1Unmarshal aggsig = some S)
    (hdup : allowdupe = true ∨ (msgs.map E.sha256).Nodup) :
    ∃ b : Bool, VerifyAggregate E msgs keys aggsig allowdupe = Run.returns b ∧
      (b = true ↔ E.gtPair S E.g2SetOne =
        (List.zipWith (fun m q => E.gtPair (E.g1HashToPoint m) q) msgs qs).sum) := by
  cases msgs with
  | nil => exact absurd rfl hne
  | cons m0 ms =>
    cases qs with
    | nil =>
      cases keys with
      | nil => simp at hlen
      | cons _ _ => simp at hkeys
    | cons q0 qs =>
      refine ⟨_, VerifyAggregate_decoded E m0 ms keys q0 qs aggsig S allowdupe hlen hkeys hsig
        hdup, ?_⟩
      rw [heq, foldl_eq_add_sum E.gtAdd hadd]
      simp

theorem VerifyAggregate_iff_pairing_equation_witness :
    ∃ b : Bool, VerifyAggregate toy [[1], [2]] [[3], [4]] [3] false = Run.returns b ∧
      (b = true ↔ toy.gtPair 3 toy.g2SetOne =
        (List.zipWith (fun m q => toy.gtPair (toy.g1HashToPoint m) q) [[1], [2]] [3, 4]).sum) :=
  VerifyAggregate_iff_pairing_equation toy (fun _ _ => rfl) (fun a b => by simp [toy])
    [[1], [2]] [[3], [4]] [3, 4] [3] 3 false (by decide) (by decide) (by decide) (by decide)
    (Or.inr (by decide))

/-- C4 (the claim fails on the code). `VerifyAggregate` returns a boolean on every input
except one kind, where it stops with an index-out-of-range panic at `msgs[0]`: no
message, no key, and an aggregate signature that decodes to a G1 point. -/
theorem VerifyAggregate_returns_iff (E : Extern Scalar G1 G2 GT) (msgs keys : List Bytes)
    (aggsig : Bytes) (allowdupe : Bool) :
    (∃ b : Bool, VerifyAggregate E msgs keys aggsig allowdupe = Run.returns b) ↔
      ¬ (msgs = [] ∧ keys = [] ∧ (E.g1Unmarshal aggsig).isSome = true) := by
  rw [← VerifyAggregate_panics_iff E msgs keys aggsig allowdupe]
  cases VerifyAggregate E msgs keys aggsig allowdupe with
  | returns b => simp
  | panics => simp

/-- C5 (the claim fails on the code). `Aggregate` applied to the empty sequence does not
return `nil`: it stops with an index-out-of-range panic at `sigs[0]`. -/
theorem Aggregate_empty_panics (E : Extern Scalar G1 G2 GT) :
    Aggregate E [] = Run.panics ∧ Aggregate E [] ≠ Run.returns none := by
  constructor
  · rfl
  · intro h; cases h

/-- C6. For a non-empty sequence `sigs`, `Aggregate` returns `nil` if and only if some
element does not decode as a G1 point; otherwise every element decodes and it returns
Marshal of the group sum of all decoded points (`G1.Add` is taken to be the operation of
the group G1). -/
theorem Aggregate_nonempty_spec [AddCommGroup G1] (E : Extern Scalar G1 G2 GT)
    (hadd : ∀ a b, E.g1Add a b = a + b) (sigs : List Bytes) (hne : sigs ≠ []) :
    (Aggregate E sigs = Run.returns none ↔ ∃ s ∈ sigs, E.g1Unmarshal s = none) ∧
    ((¬ ∃ s ∈ sigs, E.g1Unmarshal s = none) →
      ∃ pts : List G1, sigs.map E.g1Unmarshal = pts.map some ∧
        Aggregate E sigs = Run.returns (some (E.g1Marshal pts.sum))) := by
  constructor
  · cases sigs with
    | nil => exact absurd rfl hne
    | cons s0 rest =>
      cases hu : E.g1Unmarshal s0 with
      | none => simp [Aggregate, hu]
      | some g =>
        simp only [Aggregate, hu, Run.returns.injEq, aggregateLoop_eq_none_iff,
          List.mem_cons, exists_eq_or_imp]
        simp
  · intro hall
    obtain ⟨pts, hpts⟩ := exists_decoded E.g1Unmarshal sigs hall
    refine ⟨pts, hpts, ?_⟩
    cases pts with
    | nil =>
      cases sigs with
      | nil => exact absurd rfl hne
      | cons _ _ => simp at hpts
    | cons p0 pts =>
      rw [Aggregate_decoded E sigs p0 pts hpts, foldl_eq_add_sum E.g1Add hadd]
      simp

theorem Aggregate_nonempty_spec_witness :
    (Aggregate toy [[1], [2], [4]] = Run.returns none ↔
      ∃ s ∈ [[1], [2], [4]], toy.g1Unmarshal s = none) ∧
    ((¬ ∃ s ∈ [[1], [2], [4]], toy.g1Unmarshal s = none) →
      ∃ pts : List (Fin 5), List.map toy.g1Unmarshal [[1], [2], [4]] = pts.map some ∧
        Aggregate toy [[1], [2], [4]] = Run.returns (some (toy.g1Marshal pts.sum))) :=
  Aggregate_nonempty_spec toy (fun _ _ => rfl) [[1], [2], [4]] (by decide)

end Contracts

/-! ## Rejections -/

section Rejections

variable {Scalar G1 G2 GT : Type}

/-- C7. Malformed encodings are rejected: if `aggsig` does not decode to a G1 point, or
some element of `keys` (at any index) does not decode to a G2 point, `VerifyAggregate`
returns false, whatever `msgs` and `allowdupe` are; hence `Verify(m, pk, sig)` returns
false whenever `pk` or `sig` is malformed. -/
theorem VerifyAggregate_rejects_malformed (E : Extern Scalar G1 G2 GT) :
    (∀ (msgs keys : List Bytes) (aggsig : Bytes) (allowdupe : Bool),
      (E.g1Unmarshal aggsig = none ∨ ∃ k ∈ keys, E.g2Unmarshal k = none) →
        VerifyAggregate E msgs keys aggsig allowdupe = Run.returns false) ∧
    (∀ (m pk sig : Bytes), (E.g2Unmarshal pk = none ∨ E.g1Unmarshal sig = none) →
        Verify E m pk sig = Run.returns false) := by
  have main : ∀ (msgs keys : List Bytes) (aggsig : Bytes) (allowdupe : Bool),
      (E.g1Unmarshal aggsig = none ∨ ∃ k ∈ keys, E.g2Unmarshal k = none) →
        VerifyAggregate E msgs keys aggsig allowdupe = Run.returns false := by
    intro msgs keys aggsig d h
    cases msgs with
    | nil =>
      cases keys with
      | nil =>
        rcases h with h | ⟨k, hk, _⟩
        · simp [VerifyAggregate, dupeScan, h]
        · simp at hk
      | cons k0 ks => simp [VerifyAggregate]
    | cons m0 ms =>
      cases keys with
      | nil => simp [VerifyAggregate]
      | cons k0 ks =>
        by_cases hlen : ms.length = ks.length
        · rw [VerifyAggregate_cons E m0 ms k0 ks aggsig d hlen]
          refine congrArg Run.returns ?_
          by_cases hd : (!d && dupeScan E [] (m0 :: ms)) = true
          · simp only [hd, if_true]
          · simp only [hd, if_false]
            cases hu : E.g1Unmarshal aggsig with
            | none => rfl
            | some ag =>
              cases hk0 : E.g2Unmarshal k0 with
              | none => rfl
              | some p2 =>
                simp only []
                apply verifyZip_malformed E _ ms ks _ hlen
                rcases h with h | ⟨k, hk, hbad⟩
                · rw [hu] at h; cases h
                · rcases List.mem_cons.mp hk with hk | hk
                  · subst hk; rw [hk0] at hbad; cases hbad
                  · exact ⟨k, hk, hbad⟩
        · simp [VerifyAggregate, hlen]
  refine ⟨main, ?_⟩
  intro m pk sig h
  apply main
  rcases h with h | h
  · exact Or.inr ⟨pk, List.mem_singleton.mpr rfl, h⟩
  · exact Or.inl h

theorem VerifyAggregate_rejects_malformed_witness :
    (toy.g1Unmarshal [3] = none ∨ ∃ k ∈ [[1], [2], [7]], toy.g2Unmarshal k = none) ∧
    VerifyAggregate toy [[1], [2], [3]] [[1], [2], [7]] [3] true = Run.returns false ∧
    (toy.g2Unmarshal [1] = none ∨ toy.g1Unmarshal [1, 1] = none) ∧
    Verify toy [1] [1] [1, 1] = Run.returns false :=
  ⟨Or.inr ⟨[7], by decide, by decide⟩,
    (VerifyAggregate_rejects_malformed toy).1 [[1], [2], [3]] [[1], [2], [7]] [3] true
      (Or.inr ⟨[7], by decide, by decide⟩),
    Or.inr (by decide),
    (VerifyAggregate_rejects_malformed toy).2 [1] [1] [1, 1] (Or.inr (by decide))⟩

/-- C8. Arity check: when `msgs` and `keys` differ in length, `VerifyAggregate` returns
false for every `aggsig` and either value of `allowdupe`; no index is read, so no panic
can occur. -/
theorem VerifyAggregate_arity (E : Extern Scalar G1 G2 GT) (msgs keys : List Bytes)
    (aggsig : Bytes) (allowdupe : Bool) (h : msgs.length ≠ keys.length) :
    VerifyAggregate E msgs keys aggsig allowdupe = Run.returns false := by
  simp [VerifyAggregate, h]

theorem VerifyAggregate_arity_witness :
    ([] : List Bytes).length ≠ [[1]].length ∧
      VerifyAggregate toy [] [[1]] [1] true = Run.returns false :=
  ⟨by decide, VerifyAggregate_arity toy [] [[1]] [1] true (by decide)⟩

/-- C9. Duplicate rejection: with `allowdupe` false, if two entries of `msgs` at different
indices have the same SHA-256 digest, `VerifyAggregate` returns false for every `keys`
and every `aggsig`. -/
theorem VerifyAggregate_rejects_duplicates (E : Extern Scalar G1 G2 GT)
    (msgs keys : List Bytes) (aggsig : Bytes) (i j : Nat) (a b : Bytes)
    (hi : msgs[i]? = some a) (hj : msgs[j]? = some b) (hij : i ≠ j)
    (hab : E.sha256 a = E.sha256 b) :
    VerifyAggregate E msgs keys aggsig false = Run.returns false := by
  by_cases hlen : msgs.length = keys.length
  · simp [VerifyAggregate, hlen, dupeScan_of_collision E msgs i j a b hi hj hij hab]
  · simp [VerifyAggregate, hlen]

theorem VerifyAggregate_rejects_duplicates_witness :
    ([[1], [2], [1]] : List Bytes)[0]? = some [1] ∧
    ([[1], [2], [1]] : List Bytes)[2]? = some [1] ∧ 0 ≠ 2 ∧
    toy.sha256 [1] = toy.sha256 [1] ∧
    VerifyAggregate toy [[1], [2], [1]] [[1], [2], [3]] [1] false = Run.returns false :=
  ⟨by decide, by decide, by decide, rfl,
    VerifyAggregate_rejects_duplicates toy [[1], [2], [1]] [[1], [2], [3]] [1] 0 2 [1] [1]
      (by decide) (by decide) (by decide) rfl⟩

end Rejections

section WrongKey

variable {Scalar G1 G2 GT : Type} [CommRing Scalar]
  [AddCommGroup G1] [Module Scalar G1] [AddCommGroup G2] [Module Scalar G2]
  [AddCommGroup GT] [Module Scalar GT]

/-- C10. Wrong-key rejection: over a non-degenerate bilinear library whose
Marshal/Unmarshal round-trip, if the public keys of `sk` and `sk'` differ and the
hash-to-curve point of `m` is not the identity, `Verify(m, sk'.Public(), sk.Sign(m))`
returns false. -/
theorem Verify_wrong_key (E : Extern Scalar G1 G2 GT) (hB : Bilinear E)
    (hM : MarshalRoundTrip E) (hN : NonDegenerate E) (sk sk' : PrivKey Scalar) (m : Bytes)
    (hpk : Public E sk ≠ Public E sk') (hm : E.g1HashToPoint m ≠ 0) :
    Verify E m (Public E sk') (Sign E sk m) = Run.returns false := by
  rw [Verify_decoded E m (Public E sk') (Sign E sk m) _ _ (hM.g1 _) (hM.g2 _),
    hB.pair_sign_eq]
  refine congrArg Run.returns ?_
  rw [← Bool.not_eq_true, hB.gtEqual_iff]
  intro h
  have hsub : E.gtPair (E.g1HashToPoint m)
      (E.g2ScalarBaseMult sk.scalar - E.g2ScalarBaseMult sk'.scalar) = 0 := by
    have h2 := hB.pair_add_right (E.g1HashToPoint m)
      (E.g2ScalarBaseMult sk.scalar - E.g2ScalarBaseMult sk'.scalar)
      (E.g2ScalarBaseMult sk'.scalar)
    rw [sub_add_cancel, h] at h2
    exact (self_eq_add_left.mp h2)
  rcases hN _ _ hsub with h0 | h0
  · exact hm h0
  · apply hpk
    unfold Public
    rw [sub_eq_zero.mp h0]

theorem Verify_wrong_key_witness :
    Public toy (⟨2⟩ : PrivKey (Fin 5)) ≠ Public toy ⟨3⟩ ∧ toy.g1HashToPoint [1] ≠ 0 ∧
      Verify toy [1] (Public toy ⟨3⟩) (Sign toy ⟨2⟩ [1]) = Run.returns false :=
  ⟨by decide, by decide,
    Verify_wrong_key toy toy_bilinear toy_roundtrip toy_nondegenerate ⟨2⟩ ⟨3⟩ [1]
      (by decide) (by decide)⟩

end WrongKey

/-! ## The verification result as a sum over (message, key) pairs -/

section PairSums

variable {Scalar G1 G2 GT : Type}

/-- Every key of the sequence decodes to a G2 point. -/
def keysDecode (E : Extern Scalar G1 G2 GT) (keys : List Bytes) : Bool :=
  keys.all (fun k => (E.g2Unmarshal k).isSome)

/-- The right-hand side of the pairing equation as a sum over (message, key) pairs: one
pairing per pair; a key that does not decode contributes the identity. -/
def pairingSum [AddCommGroup GT] (E : Extern Scalar G1 G2 GT) (pairs : List (Bytes × Bytes)) :
    GT :=
  (pairs.map (fun p =>
    match E.g2Unmarshal p.2 with
    | none => 0
    | some q => E.gtPair (E.g1HashToPoint p.1) q)).sum

theorem verifyZip_eq_sum [AddCommGroup GT] (E : Extern Scalar G1 G2 GT)
    (hadd : ∀ a b, E.gtAdd a b = a + b) (e1 : GT) :
    ∀ (ms ks : List Bytes) (e2 : GT), ms.length = ks.length →
      verifyZip E e1 ms ks e2 =
        (keysDecode E ks && E.gtEqual e1 (e2 + pairingSum E (ms.zip ks))) := by
  intro ms
  induction ms with
  | nil =>
    intro ks e2 hlen
    cases ks with
    | nil => simp [verifyZip, keysDecode, pairingSum]
    | cons _ _ => simp at hlen
  | cons m ms ih =>
    intro ks e2 hlen
    cases ks with
    | nil => simp at hlen
    | cons k ks =>
      have hlen' : ms.length = ks.length := by simpa using hlen
      cases hu : E.g2Unmarshal k with
      | none => simp [verifyZip, keysDecode, hu]
      | some q =>
        simp only [verifyZip, hu]
        rw [ih ks _ hlen', hadd]
        simp [keysDecode, pairingSum, hu, add_assoc]

/-- On non-empty sequences of one length, `VerifyAggregate` returns: no duplicate stop,
a well-formed aggregate signature, well-formed keys, and the two sides equal. -/
theorem VerifyAggregate_eq_sum [AddCommGroup GT] (E : Extern Scalar G1 G2 GT)
    (hadd : ∀ a b, E.gtAdd a b = a + b) (msgs keys : List Bytes) (aggsig : Bytes) (d : Bool)
    (hlen : msgs.length = keys.length) (hne : msgs ≠ []) :
    VerifyAggregate E msgs keys aggsig d = Run.returns
      (!(!d && dupeScan E [] msgs) &&
        match E.g1Unmarshal aggsig with
        | none => false
        | some ag =>
          keysDecode E keys &&
            E.gtEqual (E.gtPair ag E.g2SetOne) (pairingSum E (msgs.zip keys))) := by
  cases msgs with
  | nil => exact absurd rfl hne
  | cons m0 ms =>
    cases keys with
    | nil => simp at hlen
    | cons k0 ks =>
      have hlen' : ms.length = ks.length := by simpa using hlen
      rw [VerifyAggregate_cons E m0 ms k0 ks aggsig d hlen']
      refine congrArg Run.returns ?_
      by_cases hd : (!d && dupeScan E [] (m0 :: ms)) = true
      · simp only [hd, if_true]; simp
      · simp only [hd, if_false, Bool.false_eq_true, Bool.not_false, Bool.true_and]
        cases E.g1Unmarshal aggsig with
        | none => rfl
        | some ag =>
          cases hu : E.g2Unmarshal k0 with
          | none => simp [keysDecode, hu]
          | some q =>
            simp only []
            rw [verifyZip_eq_sum E hadd _ ms ks _ hlen']
            simp [keysDecode, pairingSum, hu]

end PairSums

/-! ## Aggregation as a sum over the sequence -/

section AggregateSums

variable {Scalar G1 G2 GT : Type}

theorem Aggregate_of_malformed (E : Extern Scalar G1 G2 GT) (sigs : List Bytes)
    (hne : sigs ≠ []) (hbad : ∃ s ∈ sigs, E.g1Unmarshal s = none) :
    Aggregate E sigs = Run.returns none := by
  cases sigs with
  | nil => exact absurd rfl hne
  | cons s0 rest =>
    cases hu : E.g1Unmarshal s0 with
    | none => simp [Aggregate, hu]
    | some g =>
      obtain ⟨s, hs, hnone⟩ := hbad
      rcases List.mem_cons.mp hs with h | h
      · subst h; rw [hu] at hnone; cases hnone
      · simp only [Aggregate, hu]
        exact congrArg Run.returns ((aggregateLoop_eq_none_iff E rest g).mpr ⟨s, h, hnone⟩)

/-- When every element decodes, `Aggregate` marshals the sum of the decoded points. -/
theorem Aggregate_eq_sum [AddCommGroup G1] (E : Extern Scalar G1 G2 GT)
    (hadd : ∀ a b, E.g1Add a b = a + b) (sigs : List Bytes) (hne : sigs ≠ [])
    (hall : ¬ ∃ s ∈ sigs, E.g1Unmarshal s = none) :
    Aggregate E sigs = Run.returns
      (some (E.g1Marshal (sigs.map (fun s => (E.g1Unmarshal s).getD 0)).sum)) := by
  obtain ⟨pts, hpts⟩ := exists_decoded E.g1Unmarshal sigs hall
  have hsum : sigs.map (fun s => (E.g1Unmarshal s).getD 0) = pts := by
    have h := congrArg (List.map (fun o : Option G1 => o.getD 0)) hpts
    simpa [List.map_map, Function.comp_def] using h
  cases pts with
  | nil =>
    cases sigs with
    | nil => exact absurd rfl hne
    | cons _ _ => simp at hpts
  | cons p0 pts =>
    rw [Aggregate_decoded E sigs p0 pts hpts, foldl_eq_add_sum E.g1Add hadd, hsum]
    simp

/-- C11. Aggregation is order-independent (`G1.Add` is taken to be the operation of the
commutative group G1).  For every two byte strings, `Aggregate([s1,s2])` equals
`Aggregate([s2,s1])`: both return `nil` when either string is malformed, and both return
Marshal of the sum of the two points when both decode.  More generally, on a non-empty
sequence and any permutation of it `Aggregate` returns the same result: `nil` for both
when some element is malformed, the same bytes for both otherwise. -/
theorem Aggregate_perm [AddCommGroup G1] (E : Extern Scalar G1 G2 GT)
    (hadd : ∀ a b, E.g1Add a b = a + b) :
    (∀ s1 s2 : Bytes,
      Aggregate E [s1, s2] = Aggregate E [s2, s1] ∧
      ((E.g1Unmarshal s1 = none ∨ E.g1Unmarshal s2 = none) →
        Aggregate E [s1, s2] = Run.returns none ∧ Aggregate E [s2, s1] = Run.returns none) ∧
      (∀ p1 p2 : G1, E.g1Unmarshal s1 = some p1 → E.g1Unmarshal s2 = some p2 →
        Aggregate E [s1, s2] = Run.returns (some (E.g1Marshal (p1 + p2))) ∧
        Aggregate E [s2, s1] = Run.returns (some (E.g1Marshal (p1 + p2))))) ∧
    (∀ sigs sigs' : List Bytes, sigs ≠ [] → sigs.Perm sigs' →
      Aggregate E sigs = Aggregate E sigs' ∧
      ((∃ s ∈ sigs, E.g1Unmarshal s = none) →
        Aggregate E sigs = Run.returns none ∧ Aggregate E sigs' = Run.returns none) ∧
      ((¬ ∃ s ∈ sigs, E.g1Unmarshal s = none) →
        ∃ agg : Bytes, Aggregate E sigs = Run.returns (some agg) ∧
          Aggregate E sigs' = Run.returns (some agg))) := by
  have bad : ∀ sigs sigs' : List Bytes, sigs ≠ [] → sigs.Perm sigs' →
      (∃ s ∈ sigs, E.g1Unmarshal s = none) →
        Aggregate E sigs = Run.returns none ∧ Aggregate E sigs' = Run.returns none := by
    intro sigs sigs' hne hperm hbad
    have hne' : sigs' ≠ [] := fun h => hne (by rw [h] at hperm; exact hperm.eq_nil)
    have hbad' : ∃ s ∈ sigs', E.g1Unmarshal s = none := by
      obtain ⟨s, hs, h⟩ := hbad
      exact ⟨s, hperm.mem_iff.mp hs, h⟩
    exact ⟨Aggregate_of_malformed E sigs hne hbad, Aggregate_of_malformed E sigs' hne' hbad'⟩
  have good : ∀ sigs sigs' : List Bytes, sigs ≠ [] → sigs.Perm sigs' →
      (¬ ∃ s ∈ sigs, E.g1Unmarshal s = none) →
        ∃ agg : Bytes, Aggregate E sigs = Run.returns (some agg) ∧
          Aggregate E sigs' = Run.returns (some agg) := by
    intro sigs sigs' hne hperm hbad
    have hne' : sigs' ≠ [] := fun h => hne (by rw [h] at hperm; exact hperm.eq_nil)
    have hbad' : ¬ ∃ s ∈ sigs', E.g1Unmarshal s = none := by
      rintro ⟨s, hs, h⟩
      exact hbad ⟨s, hperm.mem_iff.mpr hs, h⟩
    refine ⟨_, Aggregate_eq_sum E hadd sigs hne hbad, ?_⟩
    rw [Aggregate_eq_sum E hadd sigs' hne' hbad', (hperm.map _).sum_eq]
  have same : ∀ sigs sigs' : List Bytes, sigs ≠ [] → sigs.Perm sigs' →
      Aggregate E sigs = Aggregate E sigs' := by
    intro sigs sigs' hne hperm
    by_cases hbad : ∃ s ∈ sigs, E.g1Unmarshal s = none
    · obtain ⟨h1, h2⟩ := bad sigs sigs' hne hperm hbad
      rw [h1, h2]
    · obtain ⟨agg, h1, h2⟩ := good sigs sigs' hne hperm hbad
      rw [h1, h2]
  refine ⟨fun s1 s2 => ⟨same _ _ (by simp) (List.Perm.swap s2 s1 []), ?_, ?_⟩,
    fun sigs sigs' hne hperm =>
      ⟨same sigs sigs' hne hperm, bad sigs sigs' hne hperm, good sigs sigs' hne hperm⟩⟩
  · intro h
    apply bad [s1, s2] [s2, s1] (by simp) (List.Perm.swap s2 s1 [])
    rcases h with h | h
    · exact ⟨s1, by simp, h⟩
    · exact ⟨s2, by simp, h⟩
  · intro p1 p2 h1 h2
    constructor
    · rw [Aggregate_decoded E [s1, s2] p1 [p2] (by simp [h1, h2])]
      simp [hadd]
    · rw [Aggregate_decoded E [s2, s1] p2 [p1] (by simp [h1, h2])]
      simp [hadd, add_comm]

theorem Aggregate_perm_witness :
    (Aggregate toy [[1], [9]] = Aggregate toy [[9], [1]] ∧
      ((toy.g1Unmarshal [1] = none ∨ toy.g1Unmarshal [9] = none) →
        Aggregate toy [[1], [9]] = Run.returns none ∧
        Aggregate toy [[9], [1]] = Run.returns none) ∧
      (∀ p1 p2 : Fin 5, toy.g1Unmarshal [1] = some p1 → toy.g1Unmarshal [9] = some p2 →
        Aggregate toy [[1], [9]] = Run.returns (some (toy.g1Marshal (p1 + p2))) ∧
        Aggregate toy [[9], [1]] = Run.returns (some (toy.g1Marshal (p1 + p2))))) ∧
    (toy.g1Unmarshal [1] = none ∨ toy.g1Unmarshal [9] = none) ∧
    Aggregate toy [[1], [9]] = Run.returns none ∧
    Aggregate toy [[9], [1]] = Run.returns none ∧
    Aggregate toy [[3], [4]] = Run.returns (some (toy.g1Marshal (3 + 4))) ∧
    Aggregate toy [[4], [3]] = Run.returns (some (toy.g1Marshal (3 + 4))) ∧
    ([[1], [2], [4]] : List Bytes) ≠ [] ∧
    List.Perm ([[1], [2], [4]] : List Bytes) [[4], [1], [2]] ∧
    (∃ agg : Bytes, Aggregate toy [[1], [2], [4]] = Run.returns (some agg) ∧
      Aggregate toy [[4], [1], [2]] = Run.returns (some agg)) ∧
    List.Perm ([[1], [9], [4]] : List Bytes) [[4], [1], [9]] ∧
    Aggregate toy [[1], [9], [4]] = Run.returns none ∧
    Aggregate toy [[4], [1], [9]] = Run.returns none :=
  ⟨(Aggregate_perm toy (fun _ _ => rfl)).1 [1] [9],
    Or.inr (by decide),
    (((Aggregate_perm toy (fun _ _ => rfl)).1 [1] [9]).2.1 (Or.inr (by decide))).1,
    (((Aggregate_perm toy (fun _ _ => rfl)).1 [1] [9]).2.1 (Or.inr (by decide))).2,
    (((Aggregate_perm toy (fun _ _ => rfl)).1 [3] [4]).2.2 3 4 (by decide) (by decide)).1,
    (((Aggregate_perm toy (fun _ _ => rfl)).1 [3] [4]).2.2 3 4 (by decide) (by decide)).2,
    by decide, by decide,
    ((Aggregate_perm toy (fun _ _ => rfl)).2 [[1], [2], [4]] [[4], [1], [2]] (by decide)
      (by decide)).2.2 (by decide),
    by decide,
    (((Aggregate_perm toy (fun _ _ => rfl)).2 [[1], [9], [4]] [[4], [1], [9]] (by decide)
      (by decide)).2.1 ⟨[9], by decide, by decide⟩).1,
    (((Aggregate_perm toy (fun _ _ => rfl)).2 [[1], [9], [4]] [[4], [1], [9]] (by decide)
      (by decide)).2.1 ⟨[9], by decide, by decide⟩).2⟩

/-- C18. Aggregation flattens (`G1.Add` is the operation of the group G1, Marshal and
Unmarshal round-trip on G1): for non-empty sequences `A` and `B` whose elements all
decode, `Aggregate(A)`, `Aggregate(B)` succeed, and aggregating the two results gives
the same bytes as `Aggregate(A ++ B)`. -/
theorem Aggregate_flatten [AddCommGroup G1] (E : Extern Scalar G1 G2 GT)
    (hadd : ∀ a b, E.g1Add a b = a + b) (hrt : ∀ p, E.g1Unmarshal (E.g1Marshal p) = some p)
    (A B : List Bytes) (hA : A ≠ []) (hB : B ≠ [])
    (hdA : ∀ s ∈ A, (E.g1Unmarshal s).isSome = true)
    (hdB : ∀ s ∈ B, (E.g1Unmarshal s).isSome = true) :
    ∃ a b c : Bytes, Aggregate E A = Run.returns (some a) ∧
      Aggregate E B = Run.returns (some b) ∧
      Aggregate E [a, b] = Run.returns (some c) ∧
      Aggregate E (A ++ B) = Run.returns (some c) := by
  have hA' : ¬ ∃ s ∈ A, E.g1Unmarshal s = none := by
    rintro ⟨s, hs, h⟩
    have := hdA s hs
    rw [h] at this
    cases this
  have hB' : ¬ ∃ s ∈ B, E.g1Unmarshal s = none := by
    rintro ⟨s, hs, h⟩
    have := hdB s hs
    rw [h] at this
    cases this
  have hAB' : ¬ ∃ s ∈ A ++ B, E.g1Unmarshal s = none := by
    rintro ⟨s, hs, h⟩
    rcases List.mem_append.mp hs with hs | hs
    · exact hA' ⟨s, hs, h⟩
    · exact hB' ⟨s, hs, h⟩
  refine ⟨_, _,
    E.g1Marshal (E.g1Add (A.map (fun s => (E.g1Unmarshal s).getD 0)).sum
      (B.map (fun s => (E.g1Unmarshal s).getD 0)).sum),
    Aggregate_eq_sum E hadd A hA hA', Aggregate_eq_sum E hadd B hB hB', ?_, ?_⟩
  · exact Aggregate_decoded E _ _ [_] (by simp [hrt])
  · rw [Aggregate_eq_sum E hadd (A ++ B) (by simp [hA]) hAB']
    simp [hadd]

theorem Aggregate_flatten_witness :
    ∃ a b c : Bytes, Aggregate toy [[1], [2]] = Run.returns (some a) ∧
      Aggregate toy [[3], [3], [4]] = Run.returns (some b) ∧
      Aggregate toy [a, b] = Run.returns (some c) ∧
      Aggregate toy ([[1], [2]] ++ [[3], [3], [4]]) = Run.returns (some c) :=
  Aggregate_flatten toy (fun _ _ => rfl) toy_roundtrip.g1 [[1], [2]] [[3], [3], [4]]
    (by decide) (by decide) (by decide) (by decide)

end AggregateSums

/-! ## Verification under permutation, on singletons, and in strict mode -/

section VerifyStructure

variable {Scalar G1 G2 GT : Type}

theorem dupeScan_perm (E : Extern Scalar G1 G2 GT) (msgs msgs' : List Bytes)
    (h : msgs.Perm msgs') : dupeScan E [] msgs = dupeScan E [] msgs' := by
  have hnd := (h.map E.sha256).nodup_iff
  rw [← dupeScan_nil_eq_false_iff, ← dupeScan_nil_eq_false_iff] at hnd
  cases h1 : dupeScan E [] msgs <;> cases h2 : dupeScan E [] msgs' <;> simp_all

theorem keysDecode_perm (E : Extern Scalar G1 G2 GT) (keys keys' : List Bytes)
    (h : keys.Perm keys') : keysDecode E keys = keysDecode E keys' := by
  rw [Bool.eq_iff_iff]
  simp only [keysDecode, List.all_eq_true]
  constructor
  · intro hk k hk'; exact hk k (h.mem_iff.mpr hk')
  · intro hk k hk'; exact hk k (h.mem_iff.mp hk')

/-- A call that returns true was made on non-empty sequences of one length. -/
theorem VerifyAggregate_true_inv (E : Extern Scalar G1 G2 GT) (msgs keys : List Bytes)
    (aggsig : Bytes) (d : Bool) (h : VerifyAggregate E msgs keys aggsig d = Run.returns true) :
    msgs.length = keys.length ∧ msgs ≠ [] := by
  by_cases hlen : msgs.length = keys.length
  · refine ⟨hlen, ?_⟩
    intro hm
    subst hm
    have hk : keys = [] := List.eq_nil_of_length_eq_zero hlen.symm
    subst hk
    cases hu : E.g1Unmarshal aggsig <;> simp [VerifyAggregate, dupeScan, hu] at h
  · simp [VerifyAggregate, hlen] at h

/-- C12. Joint permutation invariance (`GT.Add` is taken to be the operation of the
commutative target group): for non-empty `msgs` and `keys` of one length, permuting the
(message, key) pairs, the same permutation on both sequences, does not change what
`VerifyAggregate` returns, for every `aggsig` and either value of `allowdupe`. -/
theorem VerifyAggregate_joint_perm [AddCommGroup GT] (E : Extern Scalar G1 G2 GT)
    (hadd : ∀ a b, E.gtAdd a b = a + b) (msgs keys msgs' keys' : List Bytes) (aggsig : Bytes)
    (allowdupe : Bool) (hlen : msgs.length = keys.length) (hlen' : msgs'.length = keys'.length)
    (hne : msgs ≠ []) (hperm : (msgs.zip keys).Perm (msgs'.zip keys')) :
    VerifyAggregate E msgs' keys' aggsig allowdupe =
      VerifyAggregate E msgs keys aggsig allowdupe := by
  have hm : msgs.Perm msgs' := by
    have h := hperm.map Prod.fst
    rwa [List.map_fst_zip _ _ (le_of_eq hlen), List.map_fst_zip _ _ (le_of_eq hlen')] at h
  have hk : keys.Perm keys' := by
    have h := hperm.map Prod.snd
    rwa [List.map_snd_zip _ _ (le_of_eq hlen.symm),
      List.map_snd_zip _ _ (le_of_eq hlen'.symm)] at h
  have hne' : msgs' ≠ [] := fun h => hne (by rw [h] at hm; exact hm.eq_nil)
  rw [VerifyAggregate_eq_sum E hadd msgs keys aggsig allowdupe hlen hne,
    VerifyAggregate_eq_sum E hadd msgs' keys' aggsig allowdupe hlen' hne',
    dupeScan_perm E msgs msgs' hm, keysDecode_perm E keys keys' hk]
  have hsum : pairingSum E (msgs.zip keys) = pairingSum E (msgs'.zip keys') :=
    (hperm.map _).sum_eq
  rw [hsum]

theorem VerifyAggregate_joint_perm_witness :
    List.Perm (List.zip ([[1], [2], [3]] : List Bytes) ([[2], [3], [4]] : List Bytes))
      (List.zip [[3], [1], [2]] [[4], [2], [3]]) ∧
    VerifyAggregate toy [[3], [1], [2]] [[4], [2], [3]] [1] false =
      VerifyAggregate toy [[1], [2], [3]] [[2], [3], [4]] [1] false :=
  ⟨by decide,
    VerifyAggregate_joint_perm toy (fun _ _ => rfl) [[1], [2], [3]] [[2], [3], [4]]
      [[3], [1], [2]] [[4], [2], [3]] [1] false (by decide) (by decide) (by decide)
      (by decide)⟩

/-- C14. `Verify` is the singleton case of aggregate verification: `Verify(msg, pk, sig)`
equals `VerifyAggregate([msg], [pk], sig, d)` for `d` true and for `d` false; on a
singleton the duplicate flag does not change the result. -/
theorem Verify_eq_VerifyAggregate_singleton (E : Extern Scalar G1 G2 GT)
    (msg pk sig : Bytes) (d : Bool) :
    Verify E msg pk sig = VerifyAggregate E [msg] [pk] sig d := by
  cases d with
  | true => rfl
  | false => simp [Verify, VerifyAggregate, dupeScan]

/-- C17. The strict mode only rejects more: if `VerifyAggregate` with `allowdupe` false
returns true, it returns true with `allowdupe` true; and when the SHA-256 digests of the
messages are pairwise distinct the two calls have the same outcome. -/
theorem VerifyAggregate_strict_only_rejects (E : Extern Scalar G1 G2 GT)
    (msgs keys : List Bytes) (aggsig : Bytes) :
    (VerifyAggregate E msgs keys aggsig false = Run.returns true →
      VerifyAggregate E msgs keys aggsig true = Run.returns true) ∧
    ((msgs.map E.sha256).Nodup →
      VerifyAggregate E msgs keys aggsig false = VerifyAggregate E msgs keys aggsig true) := by
  have same : dupeScan E [] msgs = false →
      VerifyAggregate E msgs keys aggsig false = VerifyAggregate E msgs keys aggsig true := by
    intro h
    simp [VerifyAggregate, h]
  constructor
  · intro h
    cases hd : dupeScan E [] msgs with
    | false => rw [← same hd]; exact h
    | true =>
      by_cases hlen : msgs.length = keys.length
      · simp [VerifyAggregate, hlen, hd] at h
      · simp [VerifyAggregate, hlen] at h
  · intro hnd
    exact same ((dupeScan_nil_eq_false_iff E msgs).mpr hnd)

theorem VerifyAggregate_strict_only_rejects_witness :
    (VerifyAggregate toy [[1], [2]] [[2], [3]] [3] false = Run.returns true →
      VerifyAggregate toy [[1], [2]] [[2], [3]] [3] true = Run.returns true) ∧
    ((List.map toy.sha256 [[1], [2]]).Nodup →
      VerifyAggregate toy [[1], [2]] [[2], [3]] [3] false =
        VerifyAggregate toy [[1], [2]] [[2], [3]] [3] true) ∧
    VerifyAggregate toy [[1], [2]] [[2], [3]] [3] false = Run.returns true ∧
    (List.map toy.sha256 [[1], [2]]).Nodup :=
  ⟨(VerifyAggregate_strict_only_rejects toy [[1], [2]] [[2], [3]] [3]).1,
    (VerifyAggregate_strict_only_rejects toy [[1], [2]] [[2], [3]] [3]).2,
    by decide, by decide⟩

end VerifyStructure

/-! ## One-sided permutation, and composition of valid aggregates -/

section Composition

variable {Scalar G1 G2 GT : Type} [CommRing Scalar]
  [AddCommGroup G1] [Module Scalar G1] [AddCommGroup G2] [Module Scalar G2]
  [AddCommGroup GT] [Module Scalar GT]

theorem Bilinear.pair_sub_left {E : Extern Scalar G1 G2 GT} (hB : Bilinear E) (p p' : G1)
    (q : G2) : E.gtPair (p - p') q = E.gtPair p q - E.gtPair p' q := by
  have h := hB.pair_add_left (p - p') p' q
  rw [sub_add_cancel] at h
  rw [h, add_sub_cancel_right]

/-- With distinct public keys and distinct hashed messages, the crossed pairing sum
differs from the pairing of the aggregate of the two signatures. -/
theorem Bilinear.crossed_ne {E : Extern Scalar G1 G2 GT} (hB : Bilinear E)
    (hN : NonDegenerate E) (s1 s2 : Scalar) (h1 h2 : G1)
    (hs : s1 • E.g2SetOne ≠ s2 • E.g2SetOne) (hh : h1 ≠ h2) :
    E.gtPair (s1 • h1 + s2 • h2) E.g2SetOne ≠
      E.gtPair h2 (s1 • E.g2SetOne) + E.gtPair h1 (s2 • E.g2SetOne) := by
  intro h
  rw [hB.pair_add_left, hB.pair_smul_left, hB.pair_smul_left, hB.pair_smul_right,
    hB.pair_smul_right] at h
  have hz : E.gtPair (h1 - h2) ((s1 - s2) • E.g2SetOne) = 0 := by
    rw [hB.pair_smul_right, hB.pair_sub_left]
    have : (s1 - s2) • (E.gtPair h1 E.g2SetOne - E.gtPair h2 E.g2SetOne) =
        (s1 • E.gtPair h1 E.g2SetOne + s2 • E.gtPair h2 E.g2SetOne) -
          (s1 • E.gtPair h2 E.g2SetOne + s2 • E.gtPair h1 E.g2SetOne) := by
      simp only [sub_smul, smul_sub]
      abel
    rw [this, h, sub_self]
  rcases hN _ _ hz with h0 | h0
  · exact hh (sub_eq_zero.mp h0)
  · rw [sub_smul] at h0
    exact hs (sub_eq_zero.mp h0)

/-- C13. Permuting only one sequence breaks validity (non-degenerate bilinear library,
Marshal/Unmarshal round-trip): for two keys with distinct public keys and two messages
with distinct hash-to-curve points, the aggregate of `sk1.Sign(m1)` and `sk2.Sign(m2)`
is rejected against `[m2, m1]`, `[pk1, pk2]`, and against `[m1, m2]`, `[pk2, pk1]`. -/
theorem VerifyAggregate_one_sided_swap (E : Extern Scalar G1 G2 GT) (hB : Bilinear E)
    (hM : MarshalRoundTrip E) (hN : NonDegenerate E) (sk1 sk2 : PrivKey Scalar)
    (m1 m2 : Bytes) (hpk : Public E sk1 ≠ Public E sk2)
    (hm : E.g1HashToPoint m1 ≠ E.g1HashToPoint m2) :
    ∃ agg : Bytes, Aggregate E [Sign E sk1 m1, Sign E sk2 m2] = Run.returns (some agg) ∧
      VerifyAggregate E [m2, m1] [Public E sk1, Public E sk2] agg true = Run.returns false ∧
      VerifyAggregate E [m1, m2] [Public E sk2, Public E sk1] agg true = Run.returns false := by
  have hs : sk1.scalar • E.g2SetOne ≠ sk2.scalar • E.g2SetOne := by
    intro h
    apply hpk
    unfold Public
    rw [hB.g2ScalarBaseMult_eq, hB.g2ScalarBaseMult_eq, h]
  have hne := hB.crossed_ne hN sk1.scalar sk2.scalar _ _ hs hm
  have hagg : Aggregate E [Sign E sk1 m1, Sign E sk2 m2] = Run.returns (some (E.g1Marshal
      (E.g1Add (E.g1ScalarMult (E.g1HashToPoint m1) sk1.scalar)
        (E.g1ScalarMult (E.g1HashToPoint m2) sk2.scalar)))) :=
    Aggregate_decoded E _ _ [_] (by simp [Sign, hM.g1])
  refine ⟨_, hagg, ?_, ?_⟩
  · rw [VerifyAggregate_decoded E m2 [m1] [Public E sk1, Public E sk2]
      (E.g2ScalarBaseMult sk1.scalar) [E.g2ScalarBaseMult sk2.scalar] _ _ true rfl
      (by simp [Public, hM.g2]) (hM.g1 _) (Or.inl rfl)]
    refine congrArg Run.returns ?_
    rw [← Bool.not_eq_true, hB.gtEqual_iff]
    simpa [hB.g1Add_eq, hB.g1ScalarMult_eq, hB.g2ScalarBaseMult_eq, hB.gtAdd_eq] using hne
  · rw [VerifyAggregate_decoded E m1 [m2] [Public E sk2, Public E sk1]
      (E.g2ScalarBaseMult sk2.scalar) [E.g2ScalarBaseMult sk1.scalar] _ _ true rfl
      (by simp [Public, hM.g2]) (hM.g1 _) (Or.inl rfl)]
    refine congrArg Run.returns ?_
    rw [← Bool.not_eq_true, hB.gtEqual_iff]
    rw [add_comm] at hne
    simpa [hB.g1Add_eq, hB.g1ScalarMult_eq, hB.g2ScalarBaseMult_eq, hB.gtAdd_eq,
      add_comm] using hne

theorem VerifyAggregate_one_sided_swap_witness :
    Public toy (⟨2⟩ : PrivKey (Fin 5)) ≠ Public toy ⟨3⟩ ∧
    toy.g1HashToPoint [1] ≠ toy.g1HashToPoint [2] ∧
    ∃ agg : Bytes, Aggregate toy [Sign toy ⟨2⟩ [1], Sign toy ⟨3⟩ [2]] = Run.returns (some agg) ∧
      VerifyAggregate toy [[2], [1]] [Public toy ⟨2⟩, Public toy ⟨3⟩] agg true
        = Run.returns false ∧
      VerifyAggregate toy [[1], [2]] [Public toy ⟨3⟩, Public toy ⟨2⟩] agg true
        = Run.returns false :=
  ⟨by decide, by decide,
    VerifyAggregate_one_sided_swap toy toy_bilinear toy_roundtrip toy_nondegenerate ⟨2⟩ ⟨3⟩
      [1] [2] (by decide) (by decide)⟩

/-- C16. Valid aggregates compose (bilinear library, Marshal/Unmarshal round-trip): if
`VerifyAggregate(msgsA, keysA, sigA, true)` and `VerifyAggregate(msgsB, keysB, sigB, true)`
return true, then `Aggregate([sigA, sigB])` succeeds and `VerifyAggregate` on the
concatenated messages and keys with that aggregate returns true; the signatures need
not come from `Sign`. -/
theorem VerifyAggregate_compose (E : Extern Scalar G1 G2 GT) (hB : Bilinear E)
    (hM : MarshalRoundTrip E) (msgsA keysA : List Bytes) (sigA : Bytes)
    (msgsB keysB : List Bytes) (sigB : Bytes)
    (hA : VerifyAggregate E msgsA keysA sigA true = Run.returns true)
    (hB' : VerifyAggregate E msgsB keysB sigB true = Run.returns true) :
    ∃ agg : Bytes, Aggregate E [sigA, sigB] = Run.returns (some agg) ∧
      VerifyAggregate E (msgsA ++ msgsB) (keysA ++ keysB) agg true = Run.returns true := by
  obtain ⟨hlenA, hneA⟩ := VerifyAggregate_true_inv E msgsA keysA sigA true hA
  obtain ⟨hlenB, hneB⟩ := VerifyAggregate_true_inv E msgsB keysB sigB true hB'
  rw [VerifyAggregate_eq_sum E hB.gtAdd_eq msgsA keysA sigA true hlenA hneA] at hA
  rw [VerifyAggregate_eq_sum E hB.gtAdd_eq msgsB keysB sigB true hlenB hneB] at hB'
  cases huA : E.g1Unmarshal sigA with
  | none => simp [huA] at hA
  | some SA =>
    cases huB : E.g1Unmarshal sigB with
    | none => simp [huB] at hB'
    | some SB =>
      simp only [huA, Run.returns.injEq, Bool.not_true, Bool.false_and, Bool.not_false,
        Bool.true_and, Bool.and_eq_true, hB.gtEqual_iff] at hA
      simp only [huB, Run.returns.injEq, Bool.not_true, Bool.false_and, Bool.not_false,
        Bool.true_and, Bool.and_eq_true, hB.gtEqual_iff] at hB'
      refine ⟨E.g1Marshal (E.g1Add SA SB),
        Aggregate_decoded E _ SA [SB] (by simp [huA, huB]), ?_⟩
      rw [VerifyAggregate_eq_sum E hB.gtAdd_eq (msgsA ++ msgsB) (keysA ++ keysB) _ true
        (by simp [hlenA, hlenB]) (by simp [hneA]), hM.g1, List.zip_append hlenA]
      refine congrArg Run.returns ?_
      have hkeys : keysDecode E (keysA ++ keysB) = true := by
        have h1 := hA.1
        have h2 := hB'.1
        simp only [keysDecode, List.all_append, Bool.and_eq_true] at h1 h2 ⊢
        exact ⟨h1, h2⟩
      have hsum : pairingSum E (msgsA.zip keysA ++ msgsB.zip keysB) =
          pairingSum E (msgsA.zip keysA) + pairingSum E (msgsB.zip keysB) := by
        simp [pairingSum]
      have heq : E.gtEqual (E.gtPair (E.g1Add SA SB) E.g2SetOne)
          (pairingSum E (msgsA.zip keysA ++ msgsB.zip keysB)) = true := by
        rw [hB.gtEqual_iff, hsum, hB.g1Add_eq, hB.pair_add_left, hA.2, hB'.2]
      simp [hkeys, heq]

theorem VerifyAggregate_compose_witness :
    VerifyAggregate toy [[1], [2]] [[2], [3]] [3] true = Run.returns true ∧
    VerifyAggregate toy [[3]] [[1]] [4] true = Run.returns true ∧
    ∃ agg : Bytes, Aggregate toy [[3], [4]] = Run.returns (some agg) ∧
      VerifyAggregate toy ([[1], [2]] ++ [[3]]) ([[2], [3]] ++ [[1]]) agg true
        = Run.returns true :=
  ⟨by decide, by decide,
    VerifyAggregate_compose toy toy_bilinear toy_roundtrip [[1], [2]] [[2], [3]] [3]
      [[3]] [[1]] [4] (by decide) (by decide)⟩

end Composition

/-! ## Key derivation -/

section KeyDerivation

variable {Scalar G1 G2 GT : Type}

/-- A byte slice read as a big-endian integer. -/
def beValue (buf : Bytes) : Nat :=
  buf.foldl (fun acc b => acc * 256 + b) 0

/-- The order of the scalar field of BLS12-381. -/
def scalarFieldOrder : Nat :=
  0x73eda753299d7d483339d80809a1d80553bda402fffe5bfeffffffff00000001

theorem foldl_be_lt : ∀ (l : Bytes) (acc : Nat), (∀ b ∈ l, b < 256) →
    l.foldl (fun acc b => acc * 256 + b) acc < (acc + 1) * 256 ^ l.length := by
  intro l
  induction l with
  | nil => intro acc _; simp
  | cons x l ih =>
    intro acc h
    have hx : x < 256 := h x (List.mem_cons_self _ _)
    have hl : ∀ b ∈ l, b < 256 := fun b hb => h b (List.mem_cons_of_mem _ hb)
    have h1 := ih (acc * 256 + x) hl
    have h2 : (acc * 256 + x + 1) * 256 ^ l.length ≤ (acc + 1) * 256 * 256 ^ l.length :=
      Nat.mul_le_mul_right _ (by omega)
    simp only [List.foldl_cons, List.length_cons, pow_succ]
    calc List.foldl (fun acc b => acc * 256 + b) (acc * 256 + x) l
        < (acc * 256 + x + 1) * 256 ^ l.length := h1
      _ ≤ (acc + 1) * 256 * 256 ^ l.length := h2
      _ = (acc + 1) * (256 ^ l.length * 256) := by ring

/-- C15. Key-derivation clamp (SHA-256 gives 32 byte values): for every non-nil seed,
the empty one included, the bytes `GenPrivKey` passes to `Scalar.Unmarshal` are the
SHA-256 digest of that seed with the top two bits of byte 0 cleared, whatever the random
source holds; there are 32 of them, and read as a big-endian integer they are below
`2^254`, hence below the order of the BLS12-381 scalar field. -/
theorem GenPrivKey_clamp (E : Extern Scalar G1 G2 GT)
    (hsha : ∀ m, (E.sha256 m).length = 32 ∧ ∀ b ∈ E.sha256 m, b < 256)
    (seed rnd : Bytes) :
    (GenPrivKey E (some seed) rnd).scalar = E.scalarUnmarshal (GenPrivKeyBuf E (some seed) rnd) ∧
    (∃ b rest, E.sha256 seed = b :: rest ∧
      GenPrivKeyBuf E (some seed) rnd = (b % 64) :: rest) ∧
    (GenPrivKeyBuf E (some seed) rnd).length = 32 ∧
    beValue (GenPrivKeyBuf E (some seed) rnd) < 2 ^ 254 ∧
    beValue (GenPrivKeyBuf E (some seed) rnd) < scalarFieldOrder := by
  obtain ⟨hlen, hbytes⟩ := hsha seed
  cases hd : E.sha256 seed with
  | nil => rw [hd] at hlen; simp at hlen
  | cons b rest =>
    rw [hd] at hlen hbytes
    have hrest : rest.length = 31 := by simpa using hlen
    have hbuf : GenPrivKeyBuf E (some seed) rnd = (b % 64) :: rest := by
      simp only [GenPrivKeyBuf, hd, clamp]
      have h := Nat.and_pow_two_sub_one_eq_mod b 6
      norm_num at h
      rw [h]
    have hval : beValue (GenPrivKeyBuf E (some seed) rnd) < 2 ^ 254 := by
      rw [hbuf]
      have h := foldl_be_lt rest (b % 64)
        (fun x hx => hbytes x (List.mem_cons_of_mem _ hx))
      have h64 : b % 64 + 1 ≤ 64 := by omega
      have h2 : (b % 64 + 1) * 256 ^ rest.length ≤ 64 * 256 ^ rest.length :=
        Nat.mul_le_mul_right _ h64
      have h3 : beValue ((b % 64) :: rest) =
          List.foldl (fun acc b => acc * 256 + b) (b % 64) rest := by
        simp [beValue]
      rw [h3]
      calc List.foldl (fun acc b => acc * 256 + b) (b % 64) rest
          < (b % 64 + 1) * 256 ^ rest.length := h
        _ ≤ 64 * 256 ^ rest.length := h2
        _ = 2 ^ 254 := by rw [hrest]; norm_num
    refine ⟨rfl, ⟨b, rest, rfl, hbuf⟩, ?_, hval, ?_⟩
    · rw [hbuf]; simp [hrest]
    · exact lt_trans hval (by norm_num [scalarFieldOrder])

theorem toy_sha256_bytes :
    ∀ m, (toy.sha256 m).length = 32 ∧ ∀ b ∈ toy.sha256 m, b < 256 := by
  intro m
  refine ⟨by simp [toy], ?_⟩
  intro b hb
  simp only [toy, List.mem_replicate] at hb
  rw [hb.2]
  exact Nat.mod_lt _ (by norm_num)

theorem GenPrivKey_clamp_witness :
    (GenPrivKey toy (some []) [7, 7]).scalar =
      toy.scalarUnmarshal (GenPrivKeyBuf toy (some []) [7, 7]) ∧
    (∃ b rest, toy.sha256 [] = b :: rest ∧
      GenPrivKeyBuf toy (some []) [7, 7] = (b % 64) :: rest) ∧
    (GenPrivKeyBuf toy (some []) [7, 7]).length = 32 ∧
    beValue (GenPrivKeyBuf toy (some []) [7, 7]) < 2 ^ 254 ∧
    beValue (GenPrivKeyBuf toy (some []) [7, 7]) < scalarFieldOrder :=
  GenPrivKey_clamp toy toy_sha256_bytes [] [7, 7]

end KeyDerivation

end Blsig
